import Mathlib

/-!
Verification of `calculateUserAndProblemSkills.py`.

The file shallowly embeds the Python module: the fragment of the Python
abstract syntax produced by `ast.parse` that the analyzer inspects, the five
feature classifiers, the per-solution aggregator `code_features`, and the
cross-index aggregator `solution_features`.

Modelling conventions:
* Python dicts become insertion-ordered association lists; `defaultdict(int)`
  with `m[k] += 1` becomes `bump`.
* `ast.parse` is external standard-library code, so a source text is
  represented by its parse outcome `Except String Py` (`.ok tree` or
  `.error msg`); exceptions propagate through the `Except` monad exactly as
  Python exceptions abort the enclosing call.
* `ast.walk` enumerates nodes breadth-first; every consumer in the module
  (counting, set insertion) is insensitive to enumeration order, so `walk`
  here enumerates the same nodes depth-first.  `ast.alias`, `ast.keyword`,
  `ast.comprehension` and expression-context objects are technically AST
  nodes yielded by `ast.walk`, but no classifier matches their types; their
  own child expressions are enumerated in their place.
-/

set_option maxHeartbeats 1000000

/-- Boolean-operator nodes (`ast.boolop`). -/
inductive BoolOpK | And | Or
  deriving DecidableEq, Repr

/-- Binary-operator nodes (`ast.operator`). -/
inductive BinOpK
  | Add | Sub | Mult | MatMult | Div | Mod | Pow
  | LShift | RShift | BitOr | BitXor | BitAnd | FloorDiv
  deriving DecidableEq, Repr

/-- Unary-operator nodes (`ast.unaryop`). -/
inductive UnaryOpK | Invert | Not | UAdd | USub
  deriving DecidableEq, Repr

/-- Comparison-operator nodes (`ast.cmpop`). -/
inductive CmpOpK
  | Eq | NotEq | Lt | LtE | Gt | GtE | Is | IsNot | In | NotIn
  deriving DecidableEq, Repr

/-- Embeds `type(op).__name__` for boolean operators. -/
def boolOpName : BoolOpK → String
  | .And => "And" | .Or => "Or"

/-- Embeds `type(op).__name__` for binary operators. -/
def binOpName : BinOpK → String
  | .Add => "Add" | .Sub => "Sub" | .Mult => "Mult" | .MatMult => "MatMult"
  | .Div => "Div" | .Mod => "Mod" | .Pow => "Pow" | .LShift => "LShift"
  | .RShift => "RShift" | .BitOr => "BitOr" | .BitXor => "BitXor"
  | .BitAnd => "BitAnd" | .FloorDiv => "FloorDiv"

/-- Embeds `type(op).__name__` for unary operators. -/
def unaryOpName : UnaryOpK → String
  | .Invert => "Invert" | .Not => "Not" | .UAdd => "UAdd" | .USub => "USub"

/-- Embeds `type(op).__name__` for comparison operators. -/
def cmpOpName : CmpOpK → String
  | .Eq => "Eq" | .NotEq => "NotEq" | .Lt => "Lt" | .LtE => "LtE"
  | .Gt => "Gt" | .GtE => "GtE" | .Is => "Is" | .IsNot => "IsNot"
  | .In => "In" | .NotIn => "NotIn"

/-- Embeds `ast.alias`: an imported name with an optional `as` rename. -/
structure Alias where
  name : String
  asname : Option String
  deriving DecidableEq, Repr

mutual
/-- The fragment of the CPython AST that the analyzer inspects.
Constructor names and field order follow the `ast` module classes. -/
inductive Py where
  | Module (body : List Py)
  | FunctionDef (nm : String) (body : List Py)
  | ClassDef (nm : String) (body : List Py)
  | Return (value : Option Py)
  | Assign (targets : List Py) (value : Py)
  | AugAssign (target : Py) (op : BinOpK) (value : Py)
  | While (test : Py) (body : List Py)
  | For (target : Py) (iter : Py) (body : List Py)
  | If (test : Py) (body : List Py) (orelse : List Py)
  | With (ctx : Py) (body : List Py)
  | Raise (exc : Option Py)
  | Try (body : List Py) (handlers : List Py) (orelse : List Py) (finalbody : List Py)
  | Assert (test : Py)
  | Import (names : List Alias)
  | ImportFrom (module : Option String) (names : List Alias)
  | ExprStmt (value : Py)
  | Pass
  | Break
  | Continue
  | BoolOp (op : BoolOpK) (values : List Py)
  | BinOp (left : Py) (op : BinOpK) (right : Py)
  | UnaryOp (op : UnaryOpK) (operand : Py)
  | Lambda (body : Py)
  | IfExp (test : Py) (body : Py) (orelse : Py)
  | Dict (keys : List Py) (values : List Py)
  | Set (elts : List Py)
  | ListComp (elt : Py) (generators : List Comp)
  | SetComp (elt : Py) (generators : List Comp)
  | DictComp (key : Py) (value : Py) (generators : List Comp)
  | GeneratorExp (elt : Py) (generators : List Comp)
  | Yield (value : Option Py)
  | Compare (left : Py) (ops : List CmpOpK) (comparators : List Py)
  | Call (func : Py) (args : List Py) (keywords : List Keyword)
  | Constant
  | Attribute (value : Py) (attr : String)
  | Subscript (value : Py) (slice : Py)
  | Name (id : String)
  | List (elts : List Py)
  | Tuple (elts : List Py)
  | Slice (lower : Option Py) (upper : Option Py) (step : Option Py)

/-- Embeds `ast.comprehension`: one `for` clause of a comprehension with its `if`s. -/
inductive Comp where
  | mk (target : Py) (iter : Py) (ifs : List Py)

/-- Embeds `ast.keyword`: one keyword argument of a call (`arg=None` for `**e`). -/
inductive Keyword where
  | mk (arg : Option String) (value : Py)
end

/-- The Python classes of the nodes, as compared by `type(node)`.
`Del` is the delete expression-context class listed in
`statementNodeTypes`; no node of the embedded fragment has it. -/
inductive NodeType
  | Module | FunctionDef | ClassDef | Return | Assign | AugAssign
  | While | For | If | With | Raise | Try | Assert
  | Import | ImportFrom | ExprStmt | Pass | Break | Continue
  | BoolOp | BinOp | UnaryOp | Lambda | IfExp | Dict | Set
  | ListComp | SetComp | DictComp | GeneratorExp | Yield | Compare
  | Call | Constant | Attribute | Subscript | Name | List | Tuple | Slice
  | Del
  deriving DecidableEq, Repr

/-- Embeds `type(node)` of an embedded node. -/
def nodeTypeOf : Py → NodeType
  | .Module _ => .Module
  | .FunctionDef _ _ => .FunctionDef
  | .ClassDef _ _ => .ClassDef
  | .Return _ => .Return
  | .Assign _ _ => .Assign
  | .AugAssign _ _ _ => .AugAssign
  | .While _ _ => .While
  | .For _ _ _ => .For
  | .If _ _ _ => .If
  | .With _ _ => .With
  | .Raise _ => .Raise
  | .Try _ _ _ _ => .Try
  | .Assert _ => .Assert
  | .Import _ => .Import
  | .ImportFrom _ _ => .ImportFrom
  | .ExprStmt _ => .ExprStmt
  | .Pass => .Pass
  | .Break => .Break
  | .Continue => .Continue
  | .BoolOp _ _ => .BoolOp
  | .BinOp _ _ _ => .BinOp
  | .UnaryOp _ _ => .UnaryOp
  | .Lambda _ => .Lambda
  | .IfExp _ _ _ => .IfExp
  | .Dict _ _ => .Dict
  | .Set _ => .Set
  | .ListComp _ _ => .ListComp
  | .SetComp _ _ => .SetComp
  | .DictComp _ _ _ => .DictComp
  | .GeneratorExp _ _ => .GeneratorExp
  | .Yield _ => .Yield
  | .Compare _ _ _ => .Compare
  | .Call _ _ _ => .Call
  | .Constant => .Constant
  | .Attribute _ _ => .Attribute
  | .Subscript _ _ => .Subscript
  | .Name _ => .Name
  | .List _ => .List
  | .Tuple _ => .Tuple
  | .Slice _ _ _ => .Slice

/-- Embeds `type(node).__name__`, the key used by `countNodesOfGivenTypes`. -/
def nodeTypeName : NodeType → String
  | .Module => "Module" | .FunctionDef => "FunctionDef" | .ClassDef => "ClassDef"
  | .Return => "Return" | .Assign => "Assign" | .AugAssign => "AugAssign"
  | .While => "While" | .For => "For" | .If => "If" | .With => "With"
  | .Raise => "Raise" | .Try => "Try" | .Assert => "Assert"
  | .Import => "Import" | .ImportFrom => "ImportFrom" | .ExprStmt => "Expr"
  | .Pass => "Pass" | .Break => "Break" | .Continue => "Continue"
  | .BoolOp => "BoolOp" | .BinOp => "BinOp" | .UnaryOp => "UnaryOp"
  | .Lambda => "Lambda" | .IfExp => "IfExp" | .Dict => "Dict" | .Set => "Set"
  | .ListComp => "ListComp" | .SetComp => "SetComp" | .DictComp => "DictComp"
  | .GeneratorExp => "GeneratorExp" | .Yield => "Yield" | .Compare => "Compare"
  | .Call => "Call" | .Constant => "Constant" | .Attribute => "Attribute"
  | .Subscript => "Subscript" | .Name => "Name" | .List => "List"
  | .Tuple => "Tuple" | .Slice => "Slice" | .Del => "Del"

mutual
/-- Embeds `ast.walk(tree)`: every node of the tree (the root included).
`ast.walk` is breadth-first; all consumers are order-insensitive, so the
same nodes are enumerated depth-first here. -/
def walk : Py → List Py
  | .Module body => .Module body :: walkL body
  | .FunctionDef nm body => .FunctionDef nm body :: walkL body
  | .ClassDef nm body => .ClassDef nm body :: walkL body
  | .Return v => .Return v :: walkO v
  | .Assign ts v => .Assign ts v :: (walkL ts ++ walk v)
  | .AugAssign t op v => .AugAssign t op v :: (walk t ++ walk v)
  | .While t body => .While t body :: (walk t ++ walkL body)
  | .For t it body => .For t it body :: (walk t ++ walk it ++ walkL body)
  | .If t body orelse => .If t body orelse :: (walk t ++ walkL body ++ walkL orelse)
  | .With c body => .With c body :: (walk c ++ walkL body)
  | .Raise e => .Raise e :: walkO e
  | .Try b h o f => .Try b h o f :: (walkL b ++ walkL h ++ walkL o ++ walkL f)
  | .Assert t => .Assert t :: walk t
  | .Import ns => [.Import ns]
  | .ImportFrom m ns => [.ImportFrom m ns]
  | .ExprStmt v => .ExprStmt v :: walk v
  | .Pass => [.Pass]
  | .Break => [.Break]
  | .Continue => [.Continue]
  | .BoolOp op vs => .BoolOp op vs :: walkL vs
  | .BinOp l op r => .BinOp l op r :: (walk l ++ walk r)
  | .UnaryOp op x => .UnaryOp op x :: walk x
  | .Lambda b => .Lambda b :: walk b
  | .IfExp t b o => .IfExp t b o :: (walk t ++ walk b ++ walk o)
  | .Dict ks vs => .Dict ks vs :: (walkL ks ++ walkL vs)
  | .Set es => .Set es :: walkL es
  | .ListComp e gs => .ListComp e gs :: (walk e ++ walkG gs)
  | .SetComp e gs => .SetComp e gs :: (walk e ++ walkG gs)
  | .DictComp k v gs => .DictComp k v gs :: (walk k ++ walk v ++ walkG gs)
  | .GeneratorExp e gs => .GeneratorExp e gs :: (walk e ++ walkG gs)
  | .Yield v => .Yield v :: walkO v
  | .Compare l ops cs => .Compare l ops cs :: (walk l ++ walkL cs)
  | .Call f args kws => .Call f args kws :: (walk f ++ walkL args ++ walkK kws)
  | .Constant => [.Constant]
  | .Attribute v a => .Attribute v a :: walk v
  | .Subscript v s => .Subscript v s :: (walk v ++ walk s)
  | .Name id => [.Name id]
  | .List es => .List es :: walkL es
  | .Tuple es => .Tuple es :: walkL es
  | .Slice lo hi st => .Slice lo hi st :: (walkO lo ++ walkO hi ++ walkO st)

/-- Walk each tree of a list in order. -/
def walkL : List Py → List Py
  | [] => []
  | x :: xs => walk x ++ walkL xs

/-- Walk an optional child. -/
def walkO : Option Py → List Py
  | none => []
  | some x => walk x

/-- Walk the expressions of a list of comprehension clauses. -/
def walkG : List Comp → List Py
  | [] => []
  | g :: gs => walkC g ++ walkG gs

/-- Walk the expressions of one comprehension clause. -/
def walkC : Comp → List Py
  | .mk t it ifs => walk t ++ walk it ++ walkL ifs

/-- Walk the value expressions of a list of keyword arguments. -/
def walkK : List Keyword → List Py
  | [] => []
  | k :: ks => walkKw k ++ walkK ks

/-- Walk the value expression of one keyword argument. -/
def walkKw : Keyword → List Py
  | .mk _ v => walk v
end

/-! ### Count maps -/
/-- A Python dict with `int` values, as an insertion-ordered association list. -/
abbrev CountMap := List (String × Nat)

/-- Embeds `d[k]` on a dict / `None`-free lookup: first binding of `k`, if any. -/
def lookupA {α : Type} : List (String × α) → String → Option α
  | [], _ => none
  | (k', v) :: rest, k => if k' = k then some v else lookupA rest k

/-- Embeds `d[k] = v` on a dict: overwrite in place, else append. -/
def setA {α : Type} : List (String × α) → String → α → List (String × α)
  | [], k, v => [(k, v)]
  | (k', v') :: rest, k, v =>
    if k' = k then (k', v) :: rest else (k', v') :: setA rest k v

/-- Embeds `d[k] = f(d[k])` on a dict: modify the value at a present key. -/
def modifyA {α : Type} : List (String × α) → String → (α → α) → List (String × α)
  | [], _, _ => []
  | (k', v) :: rest, k, f =>
    if k' = k then (k', f v) :: rest else (k', v) :: modifyA rest k f

/-- Embeds `result[k] += 1` on a `defaultdict(int)`. -/
def bump (m : CountMap) (k : String) : CountMap :=
  match m with
  | [] => [(k, 1)]
  | (k', v) :: rest => if k' = k then (k', v + 1) :: rest else (k', v) :: bump rest k

/-- The count recorded for `k` (0 when absent, as in `defaultdict(int)`). -/
def countOf (m : CountMap) (k : String) : Nat := (lookupA m k).getD 0

/-- The keys of an association-list dict, in order. -/
def keysOf {α : Type} (m : List (String × α)) : List String := m.map Prod.fst

/-! ### Construct tester functions -/
/-- The `generators` field of a comprehension node (empty on other nodes,
which the taxonomy never tests). -/
def generatorsOf : Py → List Comp
  | .ListComp _ gs => gs
  | .SetComp _ gs => gs
  | .DictComp _ _ gs => gs
  | .GeneratorExp _ gs => gs
  | _ => []

/-- The `ifs` field of an `ast.comprehension` clause. -/
def compIfs : Comp → List Py
  | .mk _ _ ifs => ifs

/-- Embeds `MultiTargetAssignment(ast_node)`: `isinstance(ast_node.targets[0], ast.Tuple)`.
The tester is only ever applied to `ast.Assign` nodes, whose target list is
never empty in a parsed tree. -/
def MultiTargetAssignment (ast_node : Py) : Bool :=
  match ast_node with
  | .Assign targets _ =>
    match targets.head? with
    | some t => nodeTypeOf t == NodeType.Tuple
    | none => false
  | _ => false

/-- Embeds `FilteredComprehension(ast_node)`: some generator clause has `len(c.ifs) > 0`. -/
def FilteredComprehension (ast_node : Py) : Bool :=
  (generatorsOf ast_node).any fun c => decide ((compIfs c).length > 0)

/-- Embeds `MultilevelComprehension(ast_node)`: `len(ast_node.generators) > 1`. -/
def MultilevelComprehension (ast_node : Py) : Bool :=
  decide ((generatorsOf ast_node).length > 1)

/-- Embeds `ChainedCompare(ast_node)`: `len(ast_node.ops) > 1`. -/
def ChainedCompare (ast_node : Py) : Bool :=
  match ast_node with
  | .Compare _ ops _ => decide (ops.length > 1)
  | _ => false

/-- Embeds `KeywordArgumentUsage(ast_node)`: `len(ast_node.keywords) > 0`. -/
def KeywordArgumentUsage (ast_node : Py) : Bool :=
  match ast_node with
  | .Call _ _ keywords => decide (keywords.length > 0)
  | _ => false

/-! ### The construct taxonomy -/
/-- One entry of a `construct_def_map` tuple: either a plain construct name,
always counted, or a tester function, counted under the function's name when
it accepts the node. -/
inductive ConstructDescr
  | plain (nm : String)
  | test (nm : String) (f : Py → Bool)

/-- Embeds `comprehension = 'Comprehension', FilteredComprehension, MultilevelComprehension`. -/
def comprehension : List ConstructDescr :=
  [.plain "Comprehension",
   .test "FilteredComprehension" FilteredComprehension,
   .test "MultilevelComprehension" MultilevelComprehension]

/-- Embeds `makeComprehensionSpec(collection_type)`. -/
def makeComprehensionSpec (collection_type : String) : List ConstructDescr :=
  .plain (collection_type ++ "Comprehension") ::
    .plain (collection_type ++ "Display") :: comprehension

/-- Embeds `construct_def_map`: construct names and/or tester functions per node type. -/
def construct_def_map : NodeType → Option (List ConstructDescr)
  | .FunctionDef => some [.plain "FunctionDef"]
  | .ClassDef => some [.plain "ClassDef"]
  | .IfExp => some [.plain "IfExpression"]
  | .Assign => some [.plain "Assignment", .test "MultiTargetAssignment" MultiTargetAssignment]
  | .AugAssign => some [.plain "AugmentedAssignment"]
  | .List => some [.plain "ListDisplay"]
  | .ListComp => some (makeComprehensionSpec "List")
  | .Set => some [.plain "SetDisplay"]
  | .SetComp => some (makeComprehensionSpec "Set")
  | .Dict => some [.plain "DictionaryDisplay"]
  | .DictComp => some (makeComprehensionSpec "Dictionary")
  | .GeneratorExp => some (.plain "GeneratorExpression" :: comprehension)
  | .Compare => some [.test "ChainedCompare" ChainedCompare]
  | .Subscript => some [.plain "Subscription"]
  | .Slice => some [.plain "Slicing"]
  | .Call => some [.test "KeywordArgumentUsage" KeywordArgumentUsage]
  | _ => none

/-- Apply one construct descriptor to a node, as the inner loop of
`getAllConstructs` does. -/
def applyDescr (n : Py) (m : CountMap) : ConstructDescr → CountMap
  | .plain nm => bump m nm
  | .test nm f => if f n then bump m nm else m

/-- The body of the `getAllConstructs` loop for one walked node. -/
def constructStep (m : CountMap) (n : Py) : CountMap :=
  match construct_def_map (nodeTypeOf n) with
  | some descrs => descrs.foldl (applyDescr n) m
  | none => m

/-- Embeds `getAllConstructs(tree)`. -/
def getAllConstructs (tree : Py) : CountMap := (walk tree).foldl constructStep []

/-! ### Statements -/
/-- Embeds `countNodesOfGivenTypes(tree, node_types)`: count walked nodes of the
listed types under `type(node).__name__`. -/
def countNodesOfGivenTypes (tree : Py) (node_types : List NodeType) : CountMap :=
  (walk tree).foldl
    (fun m n =>
      if nodeTypeOf n ∈ node_types then bump m (nodeTypeName (nodeTypeOf n)) else m) []

/-- Embeds `statementNodeTypes` (the frozenset; `ast.Del` is listed in the source and
kept here, though it is an expression-context class no walked node has). -/
def statementNodeTypes : List NodeType :=
  [.While, .For, .Return, .If, .Continue, .Break, .Try, .With, .Raise,
   .Pass, .Assert, .Del, .Yield]

/-- Embeds `getAllStatements(tree)`. -/
def getAllStatements (tree : Py) : CountMap :=
  countNodesOfGivenTypes tree statementNodeTypes

/-! ### Expressions -/
/-- The body of the `getAllExpr` loop for one walked node. -/
def exprStep (m : CountMap) (n : Py) : CountMap :=
  match n with
  | .UnaryOp op _ => bump m (unaryOpName op)
  | .BinOp _ op _ => bump m (binOpName op)
  | .BoolOp op _ => bump m (boolOpName op)
  | .Compare _ ops _ => ops.foldl (fun m op => bump m (cmpOpName op)) m
  | _ => m

/-- Embeds `getAllExpr(tree)`. -/
def getAllExpr (tree : Py) : CountMap := (walk tree).foldl exprStep []

/-! ### Functions (`FuncCallVisitor` / `getFuncCalls`) -/
mutual
/-- The `FuncCallVisitor` deque after visiting one node, threading the deque
state `d` (head = left end; `appendleft` is cons).  `visit_Name` prepends the
identifier; `visit_Attribute` prepends the attribute then an empty marker and
does not descend (its `try` body never raises); every other node is handled
by `generic_visit`, which visits the child fields in order. -/
def visitAcc : List String → Py → List String
  | d, .Name id => id :: d
  | d, .Attribute _ a => "" :: a :: d
  | d, .Module body => visitAccL d body
  | d, .FunctionDef _ body => visitAccL d body
  | d, .ClassDef _ body => visitAccL d body
  | d, .Return v => visitAccO d v
  | d, .Assign ts v => visitAcc (visitAccL d ts) v
  | d, .AugAssign t _ v => visitAcc (visitAcc d t) v
  | d, .While t body => visitAccL (visitAcc d t) body
  | d, .For t it body => visitAccL (visitAcc (visitAcc d t) it) body
  | d, .If t body orelse => visitAccL (visitAccL (visitAcc d t) body) orelse
  | d, .With c body => visitAccL (visitAcc d c) body
  | d, .Raise e => visitAccO d e
  | d, .Try b h o f => visitAccL (visitAccL (visitAccL (visitAccL d b) h) o) f
  | d, .Assert t => visitAcc d t
  | d, .Import _ => d
  | d, .ImportFrom _ _ => d
  | d, .ExprStmt v => visitAcc d v
  | d, .Pass => d
  | d, .Break => d
  | d, .Continue => d
  | d, .BoolOp _ vs => visitAccL d vs
  | d, .BinOp l _ r => visitAcc (visitAcc d l) r
  | d, .UnaryOp _ x => visitAcc d x
  | d, .Lambda b => visitAcc d b
  | d, .IfExp t b o => visitAcc (visitAcc (visitAcc d t) b) o
  | d, .Dict ks vs => visitAccL (visitAccL d ks) vs
  | d, .Set es => visitAccL d es
  | d, .ListComp e gs => visitAccG (visitAcc d e) gs
  | d, .SetComp e gs => visitAccG (visitAcc d e) gs
  | d, .DictComp k v gs => visitAccG (visitAcc (visitAcc d k) v) gs
  | d, .GeneratorExp e gs => visitAccG (visitAcc d e) gs
  | d, .Yield v => visitAccO d v
  | d, .Compare l _ cs => visitAccL (visitAcc d l) cs
  | d, .Call f args kws => visitAccK (visitAccL (visitAcc d f) args) kws
  | d, .Constant => d
  | d, .Subscript v s => visitAcc (visitAcc d v) s
  | d, .List es => visitAccL d es
  | d, .Tuple es => visitAccL d es
  | d, .Slice lo hi st => visitAccO (visitAccO (visitAccO d lo) hi) st

/-- Visit the trees of a list in order, threading the deque. -/
def visitAccL : List String → List Py → List String
  | d, [] => d
  | d, x :: xs => visitAccL (visitAcc d x) xs

/-- Visit an optional child. -/
def visitAccO : List String → Option Py → List String
  | d, none => d
  | d, some x => visitAcc d x

/-- Visit the expressions of comprehension clauses. -/
def visitAccG : List String → List Comp → List String
  | d, [] => d
  | d, g :: gs => visitAccG (visitAccC d g) gs

/-- Visit the expressions of one comprehension clause. -/
def visitAccC : List String → Comp → List String
  | d, .mk t it ifs => visitAccL (visitAcc (visitAcc d t) it) ifs

/-- Visit the value expressions of keyword arguments. -/
def visitAccK : List String → List Keyword → List String
  | d, [] => d
  | d, k :: ks => visitAccK (visitAccKw d k) ks

/-- Visit the value expression of one keyword argument. -/
def visitAccKw : List String → Keyword → List String
  | d, .mk _ v => visitAcc d v
end

/-- Embeds `callvisitor.name`: `''.join(self._name)` after visiting `node.func` with
a fresh deque. -/
def funcCallName (func : Py) : String := String.join (visitAcc [] func)

/-- Embeds `getFuncCalls(tree)`: reconstruct a name per `ast.Call` node, then count. -/
def getFuncCalls (tree : Py) : CountMap :=
  let func_calls := (walk tree).filterMap fun n =>
    match n with
    | .Call f _ _ => some (funcCallName f)
    | _ => none
  func_calls.foldl bump []

/-! ### Imports (`getAllImports`) -/
/-- Insert into a Python `set` modelled as a duplicate-free list. -/
def insertSet (s : List String) (x : String) : List String :=
  if x ∈ s then s else s ++ [x]

/-- Embeds `alias.asname if alias.asname != None else alias.name`. -/
def aliasKey (a : Alias) : String := a.asname.getD a.name

/-- The `imports` set built by the walk loop of `getAllImports`. -/
def importsSetOf (tree : Py) : List String :=
  (walk tree).foldl
    (fun s n =>
      match n with
      | .Import ns => ns.foldl (fun s a => insertSet s (aliasKey a)) s
      | .ImportFrom _ ns => ns.foldl (fun s a => insertSet s (aliasKey a)) s
      | _ => s) []

/-- Embeds `getAllImports(a)`: the set of names introduced by `ast.Import` and
`ast.ImportFrom` nodes, returned as a dict mapping each name to `True`.
(The argument here is always an AST, so the `isinstance` guard of the source
is always passed.) -/
def getAllImports (tree : Py) : List (String × Bool) :=
  (importsSetOf tree).map fun x => (x, true)

/-! ### `code_features` -/
/-- A value of the heterogeneous per-feature dicts: counts for four feature
types, the presence flag `True` for `"imports"`. -/
inductive FeatVal
  | count (n : Nat)
  | flag (b : Bool)
  deriving DecidableEq, Repr

/-- One feature dict of an analysis. -/
abbrev FeatMap := List (String × FeatVal)

/-- The per-solution `FeatureRecord`: featureType → feature → value. -/
abbrev Analysis := List (String × FeatMap)

/-- The five-keyed `result` dict assembled by `code_features` for a parsed
tree. -/
def analysisOf (tree : Py) : Analysis :=
  [("statements", (getAllStatements tree).map fun p => (p.1, FeatVal.count p.2)),
   ("functions", (getFuncCalls tree).map fun p => (p.1, FeatVal.count p.2)),
   ("imports", (getAllImports tree).map fun p => (p.1, FeatVal.flag p.2)),
   ("expressions", (getAllExpr tree).map fun p => (p.1, FeatVal.count p.2)),
   ("constructs", (getAllConstructs tree).map fun p => (p.1, FeatVal.count p.2))]

/-- Embeds `code_features(src)`: parse, then assemble the five-keyed result dict.
A source text is its parse outcome; a parse error propagates. -/
def code_features (src : Except String Py) : Except String Analysis := do
  let tree ← src
  pure (analysisOf tree)

/-! ### `solution_features` -/
/-- Innermost level of a skill index: key → `True`. -/
abbrev KeySet := List (String × Bool)

/-- feature → `KeySet`. -/
abbrev FeatIdx := List (String × KeySet)

/-- featureType → feature → `KeySet`. -/
abbrev TypeIdx := List (String × FeatIdx)

/-- A skill index: outer key → featureType → feature → `KeySet`. -/
abbrev SkillIndex := List (String × TypeIdx)

/-- Embeds `if not k in d: d[k] = default` -/
def ensureA {α : Type} (m : List (String × α)) (k : String) (d : α) : List (String × α) :=
  if (lookupA m k).isSome then m else setA m k d

/-- The four-line insertion pattern of `solution_features`: ensure the three
outer levels exist, then set `idx[a][ft][feat][b] = True`. -/
def setPath (idx : SkillIndex) (a ft feat b : String) : SkillIndex :=
  modifyA (ensureA idx a []) a fun m2 =>
    modifyA (ensureA m2 ft []) ft fun m3 =>
      modifyA (ensureA m3 feat []) feat fun m4 => setA m4 b true

instance : DecidableEq FeatIdx := inferInstance

instance : DecidableEq TypeIdx := inferInstance

instance : DecidableEq SkillIndex := inferInstance

/-- The returned pair of mirrored indexes. -/
structure Skills where
  problemSkills : SkillIndex
  userSkills : SkillIndex
  deriving DecidableEq, Repr

/-- The body of the innermost `for feature in analysis[featureType]` loop:
record the quadruple in both indexes. -/
def processFeature (pk uk ft : String) (acc : Skills) (feat : String) : Skills :=
  { problemSkills := setPath acc.problemSkills pk ft feat uk
    userSkills := setPath acc.userSkills uk ft feat pk }

/-- The two feature loops of `solution_features` for one solution's analysis. -/
def processSolution (pk uk : String) (analysis : Analysis) (acc : Skills) : Skills :=
  analysis.foldl (fun acc p => (p.2.map Prod.fst).foldl (processFeature pk uk p.1) acc) acc

/-- A batch: problemKey → userKey → source text (each text given by its
parse outcome). -/
abbrev Batch := List (String × List (String × Except String Py))

/-- The body of the `for userKey in solutions[problemKey]` loop: analyze one
solution and record its features; a parse error escapes. -/
def solutionStep (acc : Skills) (pk : String) (q : String × Except String Py) :
    Except String Skills := do
  let analysis ← code_features q.2
  pure (processSolution pk q.1 analysis acc)

/-- The body of the `for problemKey in solutions.keys()` loop. -/
def problemStep (acc : Skills) (p : String × List (String × Except String Py)) :
    Except String Skills :=
  p.2.foldlM (fun acc q => solutionStep acc p.1 q) acc

/-- Embeds `solution_features(solutions)`: analyze every solution and fold the
feature sets into the two mirrored indexes; an uncaught parse error aborts
the whole batch. -/
def solution_features (solutions : Batch) : Except String Skills :=
  solutions.foldlM problemStep { problemSkills := [], userSkills := [] }

/-- Every value of a count map built by `bump`s is at least 1. -/
def AllPos (m : CountMap) : Prop := ∀ p ∈ m, 1 ≤ p.2

/-! ### Per-node contributions of the classifiers -/
/-- How many times one construct descriptor bumps key `k` at node `n`. -/
def descrContrib (n : Py) (k : String) : ConstructDescr → Nat
  | .plain nm => if nm = k then 1 else 0
  | .test nm f => if nm = k ∧ f n = true then 1 else 0

/-- How many times `getAllConstructs` bumps key `k` while processing node `n`. -/
def nodeContrib (n : Py) (k : String) : Nat :=
  match construct_def_map (nodeTypeOf n) with
  | some ds => (ds.map (descrContrib n k)).sum
  | none => 0

/-- How many times `getAllExpr` bumps key `k` while processing node `n`. -/
def exprContrib (n : Py) (k : String) : Nat :=
  match n with
  | .UnaryOp op _ => if unaryOpName op = k then 1 else 0
  | .BinOp _ op _ => if binOpName op = k then 1 else 0
  | .BoolOp op _ => if boolOpName op = k then 1 else 0
  | .Compare _ ops _ => (ops.map cmpOpName).count k
  | _ => 0

/-- The number of walked nodes of a given type. -/
def countNodes (t : Py) (ty : NodeType) : Nat :=
  ((walk t).filter fun n => nodeTypeOf n == ty).length

/-! ### Lemmas: the import set -/
/-- The names one walked node adds to the import set. -/
def importNamesOf (n : Py) : List String :=
  match n with
  | .Import ns => ns.map aliasKey
  | .ImportFrom _ ns => ns.map aliasKey
  | _ => []

/-- Membership of a (outerKey, featureType, feature, innerKey) quadruple in a
skill index. -/
def hasQuad (idx : SkillIndex) (a ft feat b : String) : Bool :=
  (lookupA ((lookupA ((lookupA ((lookupA idx a).getD []) ft).getD []) feat).getD []) b).isSome

/-! ### Lemmas: cross-index symmetry -/
/-- The two indexes of a `Skills` value mirror each other. -/
def Mirrored (s : Skills) : Prop :=
  ∀ a ft f b, hasQuad s.problemSkills a ft f b = true ↔ hasQuad s.userSkills b ft f a = true

/-- Whether a solution's analysis records at least one feature. -/
def hasAnyFeature (src : Except String Py) : Bool :=
  match code_features src with
  | .ok a => a.any fun p => !p.2.isEmpty
  | .error _ => false

/-- The analysis of a solution whose five feature dicts are all empty. -/
def emptyAnalysis : Analysis :=
  [("statements", []), ("functions", []), ("imports", []),
   ("expressions", []), ("constructs", [])]

/-! ### Concrete programs (hand-translated CPython parse trees) -/
/-- The parsed tree of the one-line program `import os` (the text is a
single statement; the name has no rename). -/
def osTree : Py := .Module [.Import [⟨"os", none⟩]]

/-- A parse failure, as raised for a syntactically invalid solution. -/
def parseFailure : Except String Py := .error "SyntaxError: invalid syntax"

/-- The parsed tree of `a, b = 1, 2`. -/
def tupleAssignTree : Py :=
  .Module [.Assign [.Tuple [.Name "a", .Name "b"]] (.Tuple [.Constant, .Constant])]

/-- The parsed tree of `a = b = 1`. -/
def chainAssignTree : Py := .Module [.Assign [.Name "a", .Name "b"] .Constant]

/-- The parsed tree of `[x for x in y if x>0]`. -/
def listCompTree : Py :=
  .Module [.ExprStmt (.ListComp (.Name "x")
    [.mk (.Name "x") (.Name "y") [.Compare (.Name "x") [.Gt] [.Constant]]])]

/-- The parsed tree of `obj.method()`. -/
def objMethodCallTree : Py :=
  .Module [.ExprStmt (.Call (.Attribute (.Name "obj") "method") [] [])]

/-- The parsed tree of `method()`. -/
def bareMethodCallTree : Py := .Module [.ExprStmt (.Call (.Name "method") [] [])]

/-- The parsed tree of a two-line program whose both lines import `os`. -/
def doubleImportTree : Py := .Module [.Import [⟨"os", none⟩], .Import [⟨"os", none⟩]]

/-- The parsed tree of `a < b <= c`. -/
def chainCmpTree : Py :=
  .Module [.ExprStmt (.Compare (.Name "a") [.Lt, .LtE] [.Name "b", .Name "c"])]

/-- The parsed tree of the featureless program `x`. -/
def bareNameTree : Py := .Module [.ExprStmt (.Name "x")]

/-- A batch with one parsed solution. -/
def osBatch : Batch := [("P1", [("U1", .ok osTree)])]

/-- The aggregation result of `osBatch`. -/
def osSkills : Skills :=
  { problemSkills := [("P1", [("imports", [("os", [("U1", true)])])])]
    userSkills := [("U1", [("imports", [("os", [("P1", true)])])])] }

/-- A batch with one valid and one invalid solution under one problem. -/
def mixedBatch : Batch := [("P1", [("U1", .ok osTree), ("U2", parseFailure)])]

/-- A batch of one featureless solution. -/
def featurelessBatch : Batch := [("P1", [("U1", .ok bareNameTree)])]

/-! The theorems. -/

/-! ### Lemmas: count maps -/
/-- A successful lookup finds a binding of the list. -/
theorem lookupA_mem {α : Type} {m : List (String × α)} {k : String} {v : α}
    (h : lookupA m k = some v) : (k, v) ∈ m := by
  induction m with
  | nil => simp [lookupA] at h
  | cons p rest ih =>
    obtain ⟨k', v'⟩ := p
    by_cases hk : k' = k
    · subst hk
      simp [lookupA] at h
      simp [h]
    · simp [lookupA, hk] at h
      exact List.mem_cons_of_mem _ (ih h)

/-- Embeds `bump` increments exactly the bumped key's count. -/
theorem countOf_bump (m : CountMap) (k' k : String) :
    countOf (bump m k') k = countOf m k + (if k' = k then 1 else 0) := by
  induction m with
  | nil =>
    by_cases h : k' = k <;> simp [bump, countOf, lookupA, h]
  | cons p rest ih =>
    obtain ⟨k₀, v₀⟩ := p
    by_cases h0 : k₀ = k'
    · subst h0
      by_cases h : k₀ = k <;> simp [bump, countOf, lookupA, h]
    · by_cases h : k₀ = k
      · subst h
        have hne : ¬ k' = k₀ := fun hh => h0 hh.symm
        simp [bump, countOf, lookupA, h0, hne]
      · simp [bump, countOf, lookupA, h0, h] at ih ⊢
        exact ih

/-- Embeds `bump` leaves a key present exactly when it was present or was bumped. -/
theorem lookupA_bump_isSome (m : CountMap) (k' k : String) :
    (lookupA (bump m k') k).isSome = ((lookupA m k).isSome || (k' == k)) := by
  induction m with
  | nil => by_cases h : k' = k <;> simp [bump, lookupA, h]
  | cons p rest ih =>
    obtain ⟨k₀, v₀⟩ := p
    by_cases h0 : k₀ = k'
    · subst h0
      by_cases h : k₀ = k <;> simp [bump, lookupA, h]
    · by_cases h : k₀ = k
      · subst h
        simp [bump, lookupA, h0]
      · simp [bump, lookupA, h0, h, ih]

theorem allPos_bump {m : CountMap} (h : AllPos m) (k : String) : AllPos (bump m k) := by
  induction m with
  | nil => intro p hp; simp [bump] at hp; simp [hp]
  | cons q rest ih =>
    obtain ⟨k₀, v₀⟩ := q
    by_cases h0 : k₀ = k
    · subst h0
      intro p hp
      simp [bump] at hp
      rcases hp with hp | hp
      · simp [hp]
      · exact h p (List.mem_cons_of_mem _ hp)
    · intro p hp
      simp [bump, h0] at hp
      rcases hp with hp | hp
      · subst hp
        exact h (k₀, v₀) (by simp)
      · have hrest : AllPos rest := fun q hq => h q (List.mem_cons_of_mem _ hq)
        exact ih hrest p hp

theorem allPos_foldl {α : Type} (st : CountMap → α → CountMap)
    (hst : ∀ m a, AllPos m → AllPos (st m a)) :
    ∀ (l : List α) (m : CountMap), AllPos m → AllPos (l.foldl st m) := by
  intro l
  induction l with
  | nil => intro m h; simpa using h
  | cons a t ih => intro m h; simpa using ih (st m a) (hst m a h)

/-- In an `AllPos` map, a key is present exactly when its count is positive. -/
theorem lookupA_isSome_iff_pos {m : CountMap} (h : AllPos m) (k : String) :
    (lookupA m k).isSome ↔ 0 < countOf m k := by
  unfold countOf
  cases hl : lookupA m k with
  | none => simp
  | some v =>
    have := h _ (lookupA_mem hl)
    simpa using this

/-- Generic accumulation: if each step adds a per-element contribution to
every key's count, the fold adds the sum of contributions. -/
theorem countOf_foldl_of_step {α : Type} (st : CountMap → α → CountMap)
    (c : α → String → Nat) (h : ∀ m a k, countOf (st m a) k = countOf m k + c a k) :
    ∀ (l : List α) (m : CountMap) (k : String),
      countOf (l.foldl st m) k = countOf m k + (l.map fun a => c a k).sum := by
  intro l
  induction l with
  | nil => intro m k; simp
  | cons a t ih =>
    intro m k
    simp only [List.foldl_cons, List.map_cons, List.sum_cons]
    rw [ih (st m a) k, h m a k]
    omega

/-- Indicator sums count the matching elements. -/
theorem sum_indicator_eq_length_filter {α : Type} (l : List α) (p : α → Bool) :
    (l.map fun a => if p a then 1 else 0).sum = (l.filter p).length := by
  induction l with
  | nil => rfl
  | cons a t ih => by_cases h : p a <;> simp [List.filter_cons, h, ih] <;> omega

theorem countOf_applyDescr (n : Py) (m : CountMap) (d : ConstructDescr) (k : String) :
    countOf (applyDescr n m d) k = countOf m k + descrContrib n k d := by
  cases d with
  | plain nm => simp [applyDescr, descrContrib, countOf_bump]
  | test nm f =>
    by_cases hf : f n = true
    · by_cases hk : nm = k <;>
        simp [applyDescr, descrContrib, hf, hk, countOf_bump]
    · simp [applyDescr, descrContrib, hf]

theorem countOf_constructStep (m : CountMap) (n : Py) (k : String) :
    countOf (constructStep m n) k = countOf m k + nodeContrib n k := by
  unfold constructStep nodeContrib
  cases construct_def_map (nodeTypeOf n) with
  | none => simp
  | some ds =>
    simpa using countOf_foldl_of_step (applyDescr n) (fun d k => descrContrib n k d)
      (fun m d k => countOf_applyDescr n m d k) ds m k

/-- The count recorded by `getAllConstructs` for any key is the sum of the
per-node contributions over the walk. -/
theorem countOf_getAllConstructs (t : Py) (k : String) :
    countOf (getAllConstructs t) k = ((walk t).map fun n => nodeContrib n k).sum := by
  unfold getAllConstructs
  have h := countOf_foldl_of_step constructStep (fun n k => nodeContrib n k)
    (fun m n k => countOf_constructStep m n k) (walk t) [] k
  simpa [countOf, lookupA] using h

theorem sum_ite_name_eq_count (l : List CmpOpK) (k : String) :
    (l.map fun op => if cmpOpName op = k then 1 else 0).sum = (l.map cmpOpName).count k := by
  induction l with
  | nil => rfl
  | cons a t ih =>
    by_cases h : cmpOpName a = k <;>
      simp [List.count_cons, h, ih] <;> omega

theorem countOf_exprStep (m : CountMap) (n : Py) (k : String) :
    countOf (exprStep m n) k = countOf m k + exprContrib n k := by
  cases n with
  | Compare l ops cs =>
    simp only [exprStep, exprContrib]
    rw [countOf_foldl_of_step (fun m op => bump m (cmpOpName op))
      (fun op k => if cmpOpName op = k then 1 else 0)
      (fun m op k => countOf_bump m (cmpOpName op) k) ops m k]
    rw [sum_ite_name_eq_count]
  | UnaryOp op x => simp [exprStep, exprContrib, countOf_bump]
  | BinOp l op r => simp [exprStep, exprContrib, countOf_bump]
  | BoolOp op vs => simp [exprStep, exprContrib, countOf_bump]
  | _ => simp [exprStep, exprContrib]

/-- The count recorded by `getAllExpr` for any operator name is the sum of
the per-node contributions over the walk. -/
theorem countOf_getAllExpr (t : Py) (k : String) :
    countOf (getAllExpr t) k = ((walk t).map fun n => exprContrib n k).sum := by
  unfold getAllExpr
  have h := countOf_foldl_of_step exprStep (fun n k => exprContrib n k)
    (fun m n k => countOf_exprStep m n k) (walk t) [] k
  simpa [countOf, lookupA] using h

/-! ### All recorded counts are positive -/
theorem allPos_applyDescr {m : CountMap} (n : Py) (d : ConstructDescr)
    (h : AllPos m) : AllPos (applyDescr n m d) := by
  cases d with
  | plain nm => exact allPos_bump h nm
  | test nm f =>
    by_cases hf : f n = true
    · simpa [applyDescr, hf] using allPos_bump h nm
    · simpa [applyDescr, hf] using h

theorem allPos_constructStep {m : CountMap} (n : Py) (h : AllPos m) :
    AllPos (constructStep m n) := by
  unfold constructStep
  cases construct_def_map (nodeTypeOf n) with
  | none => simpa using h
  | some ds =>
    simpa using allPos_foldl (applyDescr n) (fun m d hm => allPos_applyDescr n d hm) ds m h

theorem allPos_nil : AllPos [] := by intro p hp; simp at hp

theorem allPos_getAllConstructs (t : Py) : AllPos (getAllConstructs t) :=
  allPos_foldl constructStep (fun m n hm => allPos_constructStep n hm) (walk t) [] allPos_nil

theorem allPos_exprStep {m : CountMap} (n : Py) (h : AllPos m) : AllPos (exprStep m n) := by
  cases n with
  | Compare l ops cs =>
    simpa [exprStep] using
      allPos_foldl (fun m op => bump m (cmpOpName op))
        (fun m op hm => allPos_bump hm (cmpOpName op)) ops m h
  | UnaryOp op x => simpa [exprStep] using allPos_bump h (unaryOpName op)
  | BinOp l op r => simpa [exprStep] using allPos_bump h (binOpName op)
  | BoolOp op vs => simpa [exprStep] using allPos_bump h (boolOpName op)
  | _ => simpa [exprStep] using h

theorem allPos_getAllExpr (t : Py) : AllPos (getAllExpr t) :=
  allPos_foldl exprStep (fun m n hm => allPos_exprStep n hm) (walk t) [] allPos_nil

theorem allPos_countNodesOfGivenTypes (t : Py) (tys : List NodeType) :
    AllPos (countNodesOfGivenTypes t tys) := by
  unfold countNodesOfGivenTypes
  refine allPos_foldl _ (fun m n hm => ?_) (walk t) [] allPos_nil
  by_cases hn : nodeTypeOf n ∈ tys
  · simpa [hn] using allPos_bump hm (nodeTypeName (nodeTypeOf n))
  · simpa [hn] using hm

theorem allPos_getAllStatements (t : Py) : AllPos (getAllStatements t) :=
  allPos_countNodesOfGivenTypes t statementNodeTypes

theorem allPos_getFuncCalls (t : Py) : AllPos (getFuncCalls t) := by
  unfold getFuncCalls
  exact allPos_foldl bump (fun m k hm => allPos_bump hm k) _ [] allPos_nil

/-! ### Contribution of the taxonomy per construct name -/
theorem sum_map_add {α : Type} (l : List α) (f g : α → Nat) :
    (l.map fun a => f a + g a).sum = (l.map f).sum + (l.map g).sum := by
  induction l with
  | nil => rfl
  | cons a t ih => simp [ih]; omega

theorem sum_nodeType_indicator (t : Py) (ty : NodeType) :
    ((walk t).map fun n => if nodeTypeOf n = ty then 1 else 0).sum = countNodes t ty := by
  unfold countNodes
  rw [← sum_indicator_eq_length_filter]
  congr 1
  refine List.map_congr_left fun n _ => ?_
  by_cases h : nodeTypeOf n = ty <;> simp [h]

theorem nodeContrib_Assignment (n : Py) :
    nodeContrib n "Assignment" = if nodeTypeOf n = NodeType.Assign then 1 else 0 := by
  cases n <;>
    simp [nodeContrib, nodeTypeOf, construct_def_map, makeComprehensionSpec,
      comprehension, descrContrib]

theorem nodeContrib_MultiTargetAssignment (n : Py) :
    nodeContrib n "MultiTargetAssignment" =
      if nodeTypeOf n = NodeType.Assign ∧ MultiTargetAssignment n = true then 1 else 0 := by
  cases n <;>
    simp [nodeContrib, nodeTypeOf, construct_def_map, makeComprehensionSpec,
      comprehension, descrContrib]

theorem nodeContrib_ListComprehension (n : Py) :
    nodeContrib n "ListComprehension" =
      if nodeTypeOf n = NodeType.ListComp then 1 else 0 := by
  cases n <;>
    simp [nodeContrib, nodeTypeOf, construct_def_map, makeComprehensionSpec,
      comprehension, descrContrib]

theorem nodeContrib_SetComprehension (n : Py) :
    nodeContrib n "SetComprehension" =
      if nodeTypeOf n = NodeType.SetComp then 1 else 0 := by
  cases n <;>
    simp [nodeContrib, nodeTypeOf, construct_def_map, makeComprehensionSpec,
      comprehension, descrContrib]

theorem nodeContrib_DictionaryComprehension (n : Py) :
    nodeContrib n "DictionaryComprehension" =
      if nodeTypeOf n = NodeType.DictComp then 1 else 0 := by
  cases n <;>
    simp [nodeContrib, nodeTypeOf, construct_def_map, makeComprehensionSpec,
      comprehension, descrContrib]

theorem nodeContrib_ListDisplay (n : Py) :
    nodeContrib n "ListDisplay" =
      (if nodeTypeOf n = NodeType.List then 1 else 0)
        + (if nodeTypeOf n = NodeType.ListComp then 1 else 0) := by
  cases n <;>
    simp [nodeContrib, nodeTypeOf, construct_def_map, makeComprehensionSpec,
      comprehension, descrContrib]

theorem nodeContrib_SetDisplay (n : Py) :
    nodeContrib n "SetDisplay" =
      (if nodeTypeOf n = NodeType.Set then 1 else 0)
        + (if nodeTypeOf n = NodeType.SetComp then 1 else 0) := by
  cases n <;>
    simp [nodeContrib, nodeTypeOf, construct_def_map, makeComprehensionSpec,
      comprehension, descrContrib]

theorem nodeContrib_DictionaryDisplay (n : Py) :
    nodeContrib n "DictionaryDisplay" =
      (if nodeTypeOf n = NodeType.Dict then 1 else 0)
        + (if nodeTypeOf n = NodeType.DictComp then 1 else 0) := by
  cases n <;>
    simp [nodeContrib, nodeTypeOf, construct_def_map, makeComprehensionSpec,
      comprehension, descrContrib]

theorem nodeContrib_Comprehension (n : Py) :
    nodeContrib n "Comprehension" =
      (if nodeTypeOf n = NodeType.ListComp then 1 else 0)
        + (if nodeTypeOf n = NodeType.SetComp then 1 else 0)
        + (if nodeTypeOf n = NodeType.DictComp then 1 else 0)
        + (if nodeTypeOf n = NodeType.GeneratorExp then 1 else 0) := by
  cases n <;>
    simp [nodeContrib, nodeTypeOf, construct_def_map, makeComprehensionSpec,
      comprehension, descrContrib]

/-- Embeds `getAllConstructs` counts `"Assignment"` once per assignment node. -/
theorem getAllConstructs_Assignment (t : Py) :
    countOf (getAllConstructs t) "Assignment" = countNodes t NodeType.Assign := by
  rw [countOf_getAllConstructs, ← sum_nodeType_indicator]
  congr 1
  exact List.map_congr_left fun n _ => nodeContrib_Assignment n

/-- Embeds `getAllConstructs` counts `"MultiTargetAssignment"` once per assignment
node whose first target is a tuple. -/
theorem getAllConstructs_MultiTargetAssignment (t : Py) :
    countOf (getAllConstructs t) "MultiTargetAssignment" =
      ((walk t).filter fun n =>
        (nodeTypeOf n == NodeType.Assign) && MultiTargetAssignment n).length := by
  rw [countOf_getAllConstructs, ← sum_indicator_eq_length_filter]
  congr 1
  refine List.map_congr_left fun n _ => ?_
  rw [nodeContrib_MultiTargetAssignment]
  by_cases h1 : nodeTypeOf n = NodeType.Assign <;>
    by_cases h2 : MultiTargetAssignment n = true <;> simp [h1, h2]

theorem getAllConstructs_ListComprehension (t : Py) :
    countOf (getAllConstructs t) "ListComprehension" = countNodes t NodeType.ListComp := by
  rw [countOf_getAllConstructs, ← sum_nodeType_indicator]
  congr 1
  exact List.map_congr_left fun n _ => nodeContrib_ListComprehension n

theorem getAllConstructs_SetComprehension (t : Py) :
    countOf (getAllConstructs t) "SetComprehension" = countNodes t NodeType.SetComp := by
  rw [countOf_getAllConstructs, ← sum_nodeType_indicator]
  congr 1
  exact List.map_congr_left fun n _ => nodeContrib_SetComprehension n

theorem getAllConstructs_DictionaryComprehension (t : Py) :
    countOf (getAllConstructs t) "DictionaryComprehension" = countNodes t NodeType.DictComp := by
  rw [countOf_getAllConstructs, ← sum_nodeType_indicator]
  congr 1
  exact List.map_congr_left fun n _ => nodeContrib_DictionaryComprehension n

theorem getAllConstructs_ListDisplay (t : Py) :
    countOf (getAllConstructs t) "ListDisplay" =
      countNodes t NodeType.List + countNodes t NodeType.ListComp := by
  rw [countOf_getAllConstructs, ← sum_nodeType_indicator, ← sum_nodeType_indicator,
    ← sum_map_add]
  congr 1
  exact List.map_congr_left fun n _ => nodeContrib_ListDisplay n

theorem getAllConstructs_SetDisplay (t : Py) :
    countOf (getAllConstructs t) "SetDisplay" =
      countNodes t NodeType.Set + countNodes t NodeType.SetComp := by
  rw [countOf_getAllConstructs, ← sum_nodeType_indicator, ← sum_nodeType_indicator,
    ← sum_map_add]
  congr 1
  exact List.map_congr_left fun n _ => nodeContrib_SetDisplay n

theorem getAllConstructs_DictionaryDisplay (t : Py) :
    countOf (getAllConstructs t) "DictionaryDisplay" =
      countNodes t NodeType.Dict + countNodes t NodeType.DictComp := by
  rw [countOf_getAllConstructs, ← sum_nodeType_indicator, ← sum_nodeType_indicator,
    ← sum_map_add]
  congr 1
  exact List.map_congr_left fun n _ => nodeContrib_DictionaryDisplay n

theorem getAllConstructs_Comprehension (t : Py) :
    countOf (getAllConstructs t) "Comprehension" =
      countNodes t NodeType.ListComp + countNodes t NodeType.SetComp
        + countNodes t NodeType.DictComp + countNodes t NodeType.GeneratorExp := by
  rw [countOf_getAllConstructs]
  rw [show ((walk t).map fun n => nodeContrib n "Comprehension") =
      (walk t).map fun n =>
        ((if nodeTypeOf n = NodeType.ListComp then 1 else 0)
          + (if nodeTypeOf n = NodeType.SetComp then 1 else 0)
          + (if nodeTypeOf n = NodeType.DictComp then 1 else 0))
          + (if nodeTypeOf n = NodeType.GeneratorExp then 1 else 0) from
    List.map_congr_left fun n _ => by rw [nodeContrib_Comprehension n]]
  rw [sum_map_add]
  rw [show ((walk t).map fun n =>
      (if nodeTypeOf n = NodeType.ListComp then 1 else 0)
        + (if nodeTypeOf n = NodeType.SetComp then 1 else 0)
        + (if nodeTypeOf n = NodeType.DictComp then 1 else 0)) =
      (walk t).map fun n =>
        ((if nodeTypeOf n = NodeType.ListComp then 1 else 0)
          + (if nodeTypeOf n = NodeType.SetComp then 1 else 0))
          + (if nodeTypeOf n = NodeType.DictComp then 1 else 0) from rfl]
  rw [sum_map_add, sum_map_add]
  rw [sum_nodeType_indicator, sum_nodeType_indicator, sum_nodeType_indicator,
    sum_nodeType_indicator]

theorem mem_insertSet (s : List String) (x y : String) :
    y ∈ insertSet s x ↔ y ∈ s ∨ y = x := by
  by_cases h : x ∈ s
  · simp only [insertSet, if_pos h]
    exact ⟨Or.inl, fun h' => h'.elim id fun he => he ▸ h⟩
  · simp [insertSet, if_neg h]

theorem nodup_insertSet (s : List String) (x : String) (h : s.Nodup) :
    (insertSet s x).Nodup := by
  by_cases hm : x ∈ s
  · simpa [insertSet, if_pos hm] using h
  · simp only [insertSet, if_neg hm]
    simp [List.nodup_append, h]
    intro hx
    exact hm hx

theorem mem_foldl_insertSet (l : List String) :
    ∀ (s : List String) (y : String), y ∈ l.foldl insertSet s ↔ y ∈ s ∨ y ∈ l := by
  induction l with
  | nil => intro s y; simp
  | cons a t ih =>
    intro s y
    simp only [List.foldl_cons]
    rw [ih (insertSet s a) y, mem_insertSet]
    simp only [List.mem_cons]
    tauto

theorem nodup_foldl_insertSet (l : List String) :
    ∀ (s : List String), s.Nodup → (l.foldl insertSet s).Nodup := by
  induction l with
  | nil => intro s h; simpa using h
  | cons a t ih => intro s h; exact ih (insertSet s a) (nodup_insertSet s a h)

/-- One step of the import-collection loop inserts exactly the node's names. -/
theorem importStep_eq (s : List String) (n : Py) :
    (match n with
      | .Import ns => ns.foldl (fun s a => insertSet s (aliasKey a)) s
      | .ImportFrom _ ns => ns.foldl (fun s a => insertSet s (aliasKey a)) s
      | _ => s) = (importNamesOf n).foldl insertSet s := by
  cases n <;> simp [importNamesOf, List.foldl_map]

theorem mem_importsSetOf (t : Py) (y : String) :
    y ∈ importsSetOf t ↔ ∃ n ∈ walk t, y ∈ importNamesOf n := by
  unfold importsSetOf
  have main : ∀ (l : List Py) (s : List String),
      (y ∈ l.foldl (fun s n =>
        (match n with
          | .Import ns => ns.foldl (fun s a => insertSet s (aliasKey a)) s
          | .ImportFrom _ ns => ns.foldl (fun s a => insertSet s (aliasKey a)) s
          | _ => s)) s) ↔ y ∈ s ∨ ∃ n ∈ l, y ∈ importNamesOf n := by
    intro l
    induction l with
    | nil => intro s; simp
    | cons a tl ih =>
      intro s
      simp only [List.foldl_cons]
      rw [ih, importStep_eq, mem_foldl_insertSet]
      simp only [List.mem_cons]
      constructor
      · rintro ((hs | ha) | ⟨n, hn, hy⟩)
        · exact Or.inl hs
        · exact Or.inr ⟨a, Or.inl rfl, ha⟩
        · exact Or.inr ⟨n, Or.inr hn, hy⟩
      · rintro (hs | ⟨n, (rfl | hn), hy⟩)
        · exact Or.inl (Or.inl hs)
        · exact Or.inl (Or.inr hy)
        · exact Or.inr ⟨n, hn, hy⟩
  rw [main (walk t) []]
  simp

theorem nodup_importsSetOf (t : Py) : (importsSetOf t).Nodup := by
  unfold importsSetOf
  have main : ∀ (l : List Py) (s : List String), s.Nodup →
      (l.foldl (fun s n =>
        (match n with
          | .Import ns => ns.foldl (fun s a => insertSet s (aliasKey a)) s
          | .ImportFrom _ ns => ns.foldl (fun s a => insertSet s (aliasKey a)) s
          | _ => s)) s).Nodup := by
    intro l
    induction l with
    | nil => intro s h; simpa using h
    | cons a tl ih =>
      intro s h
      simp only [List.foldl_cons]
      refine ih _ ?_
      rw [importStep_eq]
      exact nodup_foldl_insertSet _ s h
  exact main (walk t) [] (by simp)

/-! ### Lemmas: nested dict insertion -/
theorem lookupA_setA {α : Type} (m : List (String × α)) (k : String) (v : α) (k' : String) :
    lookupA (setA m k v) k' = if k = k' then some v else lookupA m k' := by
  induction m with
  | nil => by_cases h : k = k' <;> simp [setA, lookupA, h]
  | cons p rest ih =>
    obtain ⟨k₀, v₀⟩ := p
    by_cases h0 : k₀ = k
    · subst h0
      simp only [setA, if_pos rfl]
      by_cases h : k₀ = k' <;> simp [lookupA, h]
    · simp only [setA, if_neg h0, lookupA]
      by_cases h : k₀ = k'
      · have hne : ¬ k = k' := fun hh => h0 (h.trans hh.symm)
        simp [h, hne]
      · simp [h, ih]

theorem lookupA_modifyA {α : Type} (m : List (String × α)) (k : String) (f : α → α)
    (k' : String) :
    lookupA (modifyA m k f) k' =
      if k = k' then (lookupA m k').map f else lookupA m k' := by
  induction m with
  | nil => by_cases h : k = k' <;> simp [modifyA, lookupA, h]
  | cons p rest ih =>
    obtain ⟨k₀, v₀⟩ := p
    by_cases h0 : k₀ = k
    · subst h0
      simp only [modifyA, if_pos rfl]
      by_cases h : k₀ = k' <;> simp [lookupA, h]
    · simp only [modifyA, if_neg h0, lookupA]
      by_cases h : k₀ = k'
      · have hne : ¬ k = k' := fun hh => h0 (h.trans hh.symm)
        simp [h, hne]
      · simp [h, ih]

theorem lookupA_ensureA {α : Type} (m : List (String × α)) (k : String) (d : α)
    (k' : String) :
    lookupA (ensureA m k d) k' =
      if k = k' then some ((lookupA m k).getD d) else lookupA m k' := by
  cases hl : lookupA m k with
  | some v =>
    have he : ensureA m k d = m := by simp [ensureA, hl]
    rw [he]
    by_cases h : k = k'
    · subst h
      simp [hl]
    · simp [h]
  | none =>
    have he : ensureA m k d = setA m k d := by simp [ensureA, hl]
    rw [he, lookupA_setA]
    by_cases h : k = k'
    · subst h
      simp [hl]
    · simp [h]

/-- Ensure-then-modify is a single conditional update of one key. -/
theorem lookupA_modify_ensure {α : Type} (m : List (String × α)) (k : String) (d : α)
    (f : α → α) (k' : String) :
    lookupA (modifyA (ensureA m k d) k f) k' =
      if k = k' then some (f ((lookupA m k).getD d)) else lookupA m k' := by
  rw [lookupA_modifyA, lookupA_ensureA]
  by_cases h : k = k' <;> simp [h]

theorem keysOf_setA {α : Type} (m : List (String × α)) (k : String) (v : α) (x : String) :
    x ∈ keysOf (setA m k v) ↔ x = k ∨ x ∈ keysOf m := by
  induction m with
  | nil => simp [setA, keysOf]
  | cons p rest ih =>
    obtain ⟨k₀, v₀⟩ := p
    by_cases h0 : k₀ = k
    · subst h0
      simp [setA, keysOf]
    · simp only [setA, if_neg h0, keysOf, List.map_cons, List.mem_cons]
      rw [show List.map Prod.fst (setA rest k v) = keysOf (setA rest k v) from rfl]
      rw [show List.map Prod.fst rest = keysOf rest from rfl]
      rw [ih]
      tauto

theorem keysOf_modifyA {α : Type} (m : List (String × α)) (k : String) (f : α → α) :
    keysOf (modifyA m k f) = keysOf m := by
  induction m with
  | nil => rfl
  | cons p rest ih =>
    obtain ⟨k₀, v₀⟩ := p
    by_cases h0 : k₀ = k
    · simp [modifyA, h0, keysOf]
    · simp only [modifyA, if_neg h0, keysOf, List.map_cons, List.cons.injEq, true_and]
      exact ih

theorem keysOf_ensureA {α : Type} (m : List (String × α)) (k : String) (d : α) (x : String) :
    x ∈ keysOf (ensureA m k d) ↔ x = k ∨ x ∈ keysOf m := by
  cases hl : lookupA m k with
  | some v =>
    have he : ensureA m k d = m := by simp [ensureA, hl]
    rw [he]
    constructor
    · exact Or.inr
    · rintro (rfl | hx)
      · exact List.mem_map_of_mem Prod.fst (lookupA_mem hl)
      · exact hx
  | none =>
    have he : ensureA m k d = setA m k d := by simp [ensureA, hl]
    rw [he]
    exact keysOf_setA m k d x

/-- Embeds `setPath` records exactly the given quadruple, preserving all others. -/
theorem hasQuad_setPath (idx : SkillIndex) (a ft feat b a' ft' feat' b' : String) :
    hasQuad (setPath idx a ft feat b) a' ft' feat' b' = true ↔
      (hasQuad idx a' ft' feat' b' = true ∨ (a = a' ∧ ft = ft' ∧ feat = feat' ∧ b = b')) := by
  unfold hasQuad setPath
  rw [lookupA_modify_ensure]
  by_cases ha : a = a'
  · subst ha
    rw [if_pos rfl]
    simp only [Option.getD_some]
    rw [lookupA_modify_ensure]
    by_cases hft : ft = ft'
    · subst hft
      rw [if_pos rfl]
      simp only [Option.getD_some]
      rw [lookupA_modify_ensure]
      by_cases hfe : feat = feat'
      · subst hfe
        rw [if_pos rfl]
        simp only [Option.getD_some]
        rw [lookupA_setA]
        by_cases hb : b = b' <;> simp [hb]
      · rw [if_neg hfe]
        simp [hfe]
    · rw [if_neg hft]
      simp [hft]
  · rw [if_neg ha]
    simp [ha]

/-- Embeds `setPath` adds its outer key and no other. -/
theorem keysOf_setPath (idx : SkillIndex) (a ft feat b x : String) :
    x ∈ keysOf (setPath idx a ft feat b) ↔ x = a ∨ x ∈ keysOf idx := by
  unfold setPath
  rw [show keysOf (modifyA (ensureA idx a []) a _) = keysOf (ensureA idx a []) from
    keysOf_modifyA _ _ _]
  exact keysOf_ensureA idx a [] x

/-! ### Lemmas: folding in the `Except` monad -/
theorem foldlM_mem_preserve {α β : Type} (step : β → α → Except String β) (P : β → Prop) :
    ∀ (l : List α), (∀ b a b', a ∈ l → P b → step b a = .ok b' → P b') →
      ∀ b r, P b → l.foldlM step b = .ok r → P r := by
  intro l
  induction l with
  | nil =>
    intro _ b r hP h
    simp only [List.foldlM_nil] at h
    cases h
    exact hP
  | cons a t ih =>
    intro hstep b r hP h
    rw [List.foldlM_cons] at h
    cases hs : step b a with
    | error e =>
      rw [hs] at h
      exact Except.noConfusion h
    | ok b' =>
      rw [hs] at h
      exact ih (fun b₁ a₁ b₂ ha₁ => hstep b₁ a₁ b₂ (List.mem_cons_of_mem _ ha₁)) b' r
        (hstep b a b' (List.mem_cons_self _ _) hP hs) h

theorem foldlM_ok_all {α β : Type} (step : β → α → Except String β) :
    ∀ (l : List α) (b r : β), l.foldlM step b = .ok r →
      ∀ a ∈ l, ∃ b₁ r₁, step b₁ a = .ok r₁ := by
  intro l
  induction l with
  | nil => intro b r _ a ha; exact absurd ha (List.not_mem_nil a)
  | cons x t ih =>
    intro b r h a ha
    rw [List.foldlM_cons] at h
    cases hs : step b x with
    | error e =>
      rw [hs] at h
      exact Except.noConfusion h
    | ok b' =>
      rw [hs] at h
      rcases List.mem_cons.mp ha with rfl | ha'
      · exact ⟨b, b', hs⟩
      · exact ih b' r h a ha'

theorem sym_init : Mirrored { problemSkills := [], userSkills := [] } := by
  intro a ft f b
  simp [hasQuad, lookupA]

theorem sym_processFeature (pk uk ft : String) (acc : Skills) (feat : String)
    (h : Mirrored acc) : Mirrored (processFeature pk uk ft acc feat) := by
  intro a ft' f' b
  unfold processFeature
  simp only
  rw [hasQuad_setPath, hasQuad_setPath]
  have hiff := h a ft' f' b
  tauto

theorem sym_foldl_features (pk uk ft : String) :
    ∀ (feats : List String) (acc : Skills), Mirrored acc →
      Mirrored (feats.foldl (processFeature pk uk ft) acc) := by
  intro feats
  induction feats with
  | nil => intro acc h; simpa using h
  | cons f fs ih =>
    intro acc h
    simpa using ih (processFeature pk uk ft acc f) (sym_processFeature pk uk ft acc f h)

theorem sym_processSolution (pk uk : String) :
    ∀ (analysis : Analysis) (acc : Skills), Mirrored acc →
      Mirrored (processSolution pk uk analysis acc) := by
  intro analysis
  induction analysis with
  | nil => intro acc h; simpa [processSolution] using h
  | cons p ps ih =>
    intro acc h
    simp only [processSolution, List.foldl_cons]
    exact ih _ (sym_foldl_features pk uk p.1 (p.2.map Prod.fst) acc h)

theorem sym_solutionStep (acc : Skills) (pk : String) (q : String × Except String Py)
    (r : Skills) (h : Mirrored acc) (hs : solutionStep acc pk q = .ok r) : Mirrored r := by
  unfold solutionStep at hs
  cases hc : code_features q.2 with
  | error e => rw [hc] at hs; exact Except.noConfusion hs
  | ok analysis =>
    rw [hc] at hs
    cases hs
    exact sym_processSolution pk q.1 analysis acc h

theorem sym_problemStep (acc : Skills) (p : String × List (String × Except String Py))
    (r : Skills) (h : Mirrored acc) (hs : problemStep acc p = .ok r) : Mirrored r := by
  unfold problemStep at hs
  exact foldlM_mem_preserve (fun acc q => solutionStep acc p.1 q) Mirrored p.2
    (fun b a b' _ hb hstep => sym_solutionStep b p.1 a b' hb hstep) acc r h hs

/-- Any batch accepted by `solution_features` yields mirrored indexes. -/
theorem sym_solution_features (solutions : Batch) (r : Skills)
    (h : solution_features solutions = .ok r) : Mirrored r := by
  unfold solution_features at h
  exact foldlM_mem_preserve problemStep Mirrored solutions
    (fun b a b' _ hb hstep => sym_problemStep b a b' hb hstep) _ r sym_init h

/-! ### Lemmas: which keys the aggregation creates -/
theorem code_features_error (e : String) : code_features (.error e) = .error e := rfl

theorem code_features_ok (t : Py) : code_features (.ok t) = .ok (analysisOf t) := rfl

theorem keys_processFeature_PS (pk uk ft : String) (acc : Skills) (feat x : String) :
    x ∈ keysOf (processFeature pk uk ft acc feat).problemSkills ↔
      x = pk ∨ x ∈ keysOf acc.problemSkills := by
  unfold processFeature
  simp only
  exact keysOf_setPath acc.problemSkills pk ft feat uk x

theorem keys_processFeature_US (pk uk ft : String) (acc : Skills) (feat x : String) :
    x ∈ keysOf (processFeature pk uk ft acc feat).userSkills ↔
      x = uk ∨ x ∈ keysOf acc.userSkills := by
  unfold processFeature
  simp only
  exact keysOf_setPath acc.userSkills uk ft feat pk x

theorem keys_foldl_features_PS (pk uk ft : String) :
    ∀ (feats : List String) (acc : Skills) (x : String),
      x ∈ keysOf ((feats.foldl (processFeature pk uk ft) acc).problemSkills) ↔
        x ∈ keysOf acc.problemSkills ∨ (x = pk ∧ feats ≠ []) := by
  intro feats
  induction feats with
  | nil => intro acc x; simp
  | cons f fs ih =>
    intro acc x
    simp only [List.foldl_cons]
    rw [ih (processFeature pk uk ft acc f) x, keys_processFeature_PS]
    constructor
    · rintro ((rfl | hx) | ⟨rfl, _⟩)
      · exact Or.inr ⟨rfl, List.cons_ne_nil f fs⟩
      · exact Or.inl hx
      · exact Or.inr ⟨rfl, List.cons_ne_nil f fs⟩
    · rintro (hx | ⟨rfl, _⟩)
      · exact Or.inl (Or.inr hx)
      · exact Or.inl (Or.inl rfl)

theorem keys_foldl_features_US (pk uk ft : String) :
    ∀ (feats : List String) (acc : Skills) (x : String),
      x ∈ keysOf ((feats.foldl (processFeature pk uk ft) acc).userSkills) ↔
        x ∈ keysOf acc.userSkills ∨ (x = uk ∧ feats ≠ []) := by
  intro feats
  induction feats with
  | nil => intro acc x; simp
  | cons f fs ih =>
    intro acc x
    simp only [List.foldl_cons]
    rw [ih (processFeature pk uk ft acc f) x, keys_processFeature_US]
    constructor
    · rintro ((rfl | hx) | ⟨rfl, _⟩)
      · exact Or.inr ⟨rfl, List.cons_ne_nil f fs⟩
      · exact Or.inl hx
      · exact Or.inr ⟨rfl, List.cons_ne_nil f fs⟩
    · rintro (hx | ⟨rfl, _⟩)
      · exact Or.inl (Or.inr hx)
      · exact Or.inl (Or.inl rfl)

theorem keys_processSolution_PS (pk uk : String) :
    ∀ (analysis : Analysis) (acc : Skills) (x : String),
      x ∈ keysOf ((processSolution pk uk analysis acc).problemSkills) ↔
        x ∈ keysOf acc.problemSkills ∨ (x = pk ∧ ∃ p ∈ analysis, p.2 ≠ []) := by
  intro analysis
  induction analysis with
  | nil => intro acc x; simp [processSolution]
  | cons p ps ih =>
    intro acc x
    simp only [processSolution, List.foldl_cons] at ih ⊢
    rw [ih, keys_foldl_features_PS]
    have hmap : (p.2.map Prod.fst ≠ ([] : List String)) ↔ p.2 ≠ [] := by
      simp
    constructor
    · rintro ((hx | ⟨rfl, hne⟩) | ⟨rfl, q, hq, hne⟩)
      · exact Or.inl hx
      · exact Or.inr ⟨rfl, p, List.mem_cons_self p ps, hmap.mp hne⟩
      · exact Or.inr ⟨rfl, q, List.mem_cons_of_mem p hq, hne⟩
    · rintro (hx | ⟨rfl, q, hq, hne⟩)
      · exact Or.inl (Or.inl hx)
      · rcases List.mem_cons.mp hq with rfl | hq'
        · exact Or.inl (Or.inr ⟨rfl, hmap.mpr hne⟩)
        · exact Or.inr ⟨rfl, q, hq', hne⟩

theorem keys_processSolution_US (pk uk : String) :
    ∀ (analysis : Analysis) (acc : Skills) (x : String),
      x ∈ keysOf ((processSolution pk uk analysis acc).userSkills) ↔
        x ∈ keysOf acc.userSkills ∨ (x = uk ∧ ∃ p ∈ analysis, p.2 ≠ []) := by
  intro analysis
  induction analysis with
  | nil => intro acc x; simp [processSolution]
  | cons p ps ih =>
    intro acc x
    simp only [processSolution, List.foldl_cons] at ih ⊢
    rw [ih, keys_foldl_features_US]
    have hmap : (p.2.map Prod.fst ≠ ([] : List String)) ↔ p.2 ≠ [] := by
      simp
    constructor
    · rintro ((hx | ⟨rfl, hne⟩) | ⟨rfl, q, hq, hne⟩)
      · exact Or.inl hx
      · exact Or.inr ⟨rfl, p, List.mem_cons_self p ps, hmap.mp hne⟩
      · exact Or.inr ⟨rfl, q, List.mem_cons_of_mem p hq, hne⟩
    · rintro (hx | ⟨rfl, q, hq, hne⟩)
      · exact Or.inl (Or.inl hx)
      · rcases List.mem_cons.mp hq with rfl | hq'
        · exact Or.inl (Or.inr ⟨rfl, hmap.mpr hne⟩)
        · exact Or.inr ⟨rfl, q, hq', hne⟩

theorem processSolution_empty (pk uk : String) (acc : Skills) :
    processSolution pk uk emptyAnalysis acc = acc := rfl

/-- A batch whose analyses are all empty folds to the empty indexes. -/
theorem solution_features_all_empty (solutions : Batch)
    (h : ∀ p ∈ solutions, ∀ q ∈ p.2, code_features q.2 = .ok emptyAnalysis) :
    solution_features solutions = .ok { problemSkills := [], userSkills := [] } := by
  unfold solution_features
  suffices main : ∀ (l : Batch),
      (∀ p ∈ l, ∀ q ∈ p.2, code_features q.2 = .ok emptyAnalysis) →
      ∀ acc : Skills, l.foldlM problemStep acc = .ok acc from main solutions h _
  intro l
  induction l with
  | nil => intro _ acc; rfl
  | cons p t ih =>
    intro hl acc
    rw [List.foldlM_cons]
    have hp : problemStep acc p = .ok acc := by
      unfold problemStep
      have hinner : ∀ (u : List (String × Except String Py)),
          (∀ q ∈ u, code_features q.2 = .ok emptyAnalysis) →
          ∀ acc : Skills, u.foldlM (fun acc q => solutionStep acc p.1 q) acc = .ok acc := by
        intro u
        induction u with
        | nil => intro _ acc; rfl
        | cons q v ihv =>
          intro hu acc
          rw [List.foldlM_cons]
          have hq : solutionStep acc p.1 q = .ok acc := by
            unfold solutionStep
            rw [hu q (List.mem_cons_self q v)]
            rfl
          rw [hq]
          exact ihv (fun q' hq' => hu q' (List.mem_cons_of_mem q hq')) acc
      exact hinner p.2 (hl p (List.mem_cons_self p t)) acc
    rw [hp]
    exact ih (fun p' hp' => hl p' (List.mem_cons_of_mem p hp')) acc

/-- A batch is accepted only if every one of its solutions parsed. -/
theorem solution_features_ok_all_parsed (solutions : Batch) (r : Skills)
    (h : solution_features solutions = .ok r) :
    ∀ p ∈ solutions, ∀ q ∈ p.2, ∃ t, q.2 = .ok t := by
  intro p hp q hq
  unfold solution_features at h
  obtain ⟨b₁, r₁, hstep⟩ := foldlM_ok_all problemStep solutions _ r h p hp
  unfold problemStep at hstep
  obtain ⟨b₂, r₂, hstep2⟩ := foldlM_ok_all _ p.2 b₁ r₁ hstep q hq
  unfold solutionStep at hstep2
  cases hc : q.2 with
  | ok t => exact ⟨t, rfl⟩
  | error e =>
    rw [show code_features q.2 = .error e by rw [hc]; rfl] at hstep2
    exact Except.noConfusion hstep2

/-- Every outer key of the computed indexes originates in a solution that
recorded at least one feature. -/
theorem keys_origin_solution_features (solutions : Batch) (r : Skills)
    (h : solution_features solutions = .ok r) :
    (∀ x ∈ keysOf r.problemSkills,
        ∃ users q, (x, users) ∈ solutions ∧ q ∈ users ∧ hasAnyFeature q.2 = true) ∧
    (∀ x ∈ keysOf r.userSkills,
        ∃ pk users q, (pk, users) ∈ solutions ∧ q ∈ users ∧ q.1 = x ∧
          hasAnyFeature q.2 = true) := by
  unfold solution_features at h
  refine foldlM_mem_preserve problemStep
    (fun acc =>
      (∀ x ∈ keysOf acc.problemSkills,
          ∃ users q, (x, users) ∈ solutions ∧ q ∈ users ∧ hasAnyFeature q.2 = true) ∧
      (∀ x ∈ keysOf acc.userSkills,
          ∃ pk users q, (pk, users) ∈ solutions ∧ q ∈ users ∧ q.1 = x ∧
            hasAnyFeature q.2 = true))
    solutions ?_ _ r ⟨by simp [keysOf], by simp [keysOf]⟩ h
  intro b a b' ha hb hstep
  unfold problemStep at hstep
  refine foldlM_mem_preserve (fun acc q => solutionStep acc a.1 q)
    (fun acc =>
      (∀ x ∈ keysOf acc.problemSkills,
          ∃ users q, (x, users) ∈ solutions ∧ q ∈ users ∧ hasAnyFeature q.2 = true) ∧
      (∀ x ∈ keysOf acc.userSkills,
          ∃ pk users q, (pk, users) ∈ solutions ∧ q ∈ users ∧ q.1 = x ∧
            hasAnyFeature q.2 = true))
    a.2 ?_ b b' hb hstep
  intro c q c' hq hc hstep2
  have hstep3 : solutionStep c a.1 q = Except.ok c' := hstep2
  unfold solutionStep at hstep3
  cases hcf : code_features q.2 with
  | error e =>
    rw [hcf] at hstep3
    exact Except.noConfusion hstep3
  | ok an =>
    rw [hcf] at hstep3
    cases hstep3
    have hfeat : (∃ p ∈ an, p.2 ≠ []) → hasAnyFeature q.2 = true := by
      rintro ⟨p, hpmem, hpne⟩
      unfold hasAnyFeature
      rw [hcf]
      simp only [List.any_eq_true]
      exact ⟨p, hpmem, by simpa [List.isEmpty_iff] using hpne⟩
    constructor
    · intro x hx
      rcases (keys_processSolution_PS a.1 q.1 an c x).mp hx with hx' | ⟨rfl, hex⟩
      · exact hc.1 x hx'
      · exact ⟨a.2, q, by simpa using ha, hq, hfeat hex⟩
    · intro x hx
      rcases (keys_processSolution_US a.1 q.1 an c x).mp hx with hx' | ⟨rfl, hex⟩
      · exact hc.2 x hx'
      · exact ⟨a.1, a.2, q, by simpa using ha, hq, rfl, hfeat hex⟩

/-! ### The claims -/
/-- C1: Cross-index symmetry.  For every batch accepted by
`solution_features`, a quadruple (problemKey, featureType, feature, userKey)
is present in the returned problem index (the userKey appears under
`problemSkills[problemKey][featureType][feature]`) if and only if the
mirrored quadruple is present in the returned user index. -/
theorem C1_cross_index_symmetry (solutions : Batch) (r : Skills)
    (h : solution_features solutions = .ok r) (pk uk ft feat : String) :
    hasQuad r.problemSkills pk ft feat uk = true ↔
      hasQuad r.userSkills uk ft feat pk = true :=
  sym_solution_features solutions r h pk ft feat uk

/-- C1 witness: the symmetry instantiated on a concrete accepted batch. -/
theorem C1_witness :
    solution_features osBatch = .ok osSkills ∧
    (hasQuad osSkills.problemSkills "P1" "imports" "os" "U1" = true ↔
      hasQuad osSkills.userSkills "U1" "imports" "os" "P1" = true) :=
  ⟨rfl, C1_cross_index_symmetry osBatch osSkills rfl "P1" "U1" "imports" "os"⟩

/-- C2 counterexample: a batch holding one valid and one syntactically
invalid solution is rejected as a whole — `solution_features` evaluates to
the propagated parse error, not to an `ok` pair of indexes, so the valid
solution's features are not returned. -/
theorem C2_counterexample :
    solution_features mixedBatch = Except.error "SyntaxError: invalid syntax" := rfl

/-- C2 amended: there is no parse-failure isolation — `solution_features`
returns an aggregate only when every solution of the batch parsed; a batch
with any syntactically invalid solution fails as a whole. -/
theorem C2_no_isolation_all_or_nothing (solutions : Batch) (r : Skills)
    (h : solution_features solutions = .ok r) :
    ∀ p ∈ solutions, ∀ q ∈ p.2, ∃ t, q.2 = .ok t :=
  solution_features_ok_all_parsed solutions r h

/-- C2 witness: the amended claim instantiated on a concrete accepted batch
and one concrete solution of it. -/
theorem C2_witness : ∃ t, (Except.ok osTree : Except String Py) = .ok t :=
  C2_no_isolation_all_or_nothing osBatch osSkills rfl ("P1", [("U1", .ok osTree)])
    (List.mem_singleton.mpr rfl) ("U1", .ok osTree) (List.mem_singleton.mpr rfl)

/-- C3 counterexample: the call `obj.method()` and the bare call `method()`
reconstruct to the *same* string `"method"`, because the separator marker
pushed per attribute level is the empty string and the fragments are joined
with an empty separator. -/
theorem C3_counterexample :
    funcCallName (.Attribute (.Name "obj") "method") = funcCallName (.Name "method") ∧
    getFuncCalls objMethodCallTree = getFuncCalls bareMethodCallTree ∧
    getFuncCalls objMethodCallTree = [("method", 1)] :=
  ⟨rfl, rfl, rfl⟩

/-- C3 amended: an attribute-access callee contributes its attribute name
preceded by an *empty-string* marker on the visitor deque, and `''.join`
erases the marker, so `obj.method()` reconstructs to the same string as bare
`method()`; the receiver (base object identifier) is dropped. -/
theorem C3_attribute_call_name_reconstruction (v : Py) (attr id : String) :
    visitAcc [] (.Attribute v attr) = ["", attr] ∧
    funcCallName (.Attribute v attr) = attr ∧
    funcCallName (.Name id) = id := by
  refine ⟨rfl, ?_, ?_⟩
  · obtain ⟨data⟩ := attr
    rfl
  · obtain ⟨data⟩ := id
    rfl

/-- C4 counterexample: `a = b = 1` parses to an assignment node whose target
list has 2 entries, yet the classifier does not count MultiTargetAssignment
for it (its constructs are exactly `{"Assignment": 1}`), refuting the
"target list has ≥ 2 entries" trigger. -/
theorem C4_counterexample :
    chainAssignTree = Py.Module [.Assign [.Name "a", .Name "b"] .Constant] ∧
    ([Py.Name "a", Py.Name "b"] : List Py).length = 2 ∧
    lookupA (getAllConstructs chainAssignTree) "MultiTargetAssignment" = none ∧
    getAllConstructs chainAssignTree = [("Assignment", 1)] :=
  ⟨rfl, rfl, rfl, rfl⟩

/-- C4 amended: MultiTargetAssignment is incremented exactly for assignment
nodes whose *first target is a tuple target* (`a, b = 1, 2`, not `a = b = 1`);
every assignment node increments Assignment; the scenario
`a, b = 1, 2` yields exactly `{"Assignment": 1, "MultiTargetAssignment": 1}`. -/
theorem C4_multi_target_assignment_trigger (t : Py) :
    countOf (getAllConstructs t) "MultiTargetAssignment" =
      ((walk t).filter fun n =>
        (nodeTypeOf n == NodeType.Assign) && MultiTargetAssignment n).length ∧
    countOf (getAllConstructs t) "Assignment" = countNodes t NodeType.Assign ∧
    getAllConstructs tupleAssignTree = [("Assignment", 1), ("MultiTargetAssignment", 1)] :=
  ⟨getAllConstructs_MultiTargetAssignment t, getAllConstructs_Assignment t, rfl⟩

/-- C5: each comprehension node of a bracketed kind contributes exactly one
count to its specialized construct, one to its Display counterpart and one to
the generic Comprehension construct; the scenario `[x for x in y if x>0]`
records ListComprehension, ListDisplay, Comprehension and
FilteredComprehension once each. -/
theorem C5_comprehension_taxonomy_overlap (t : Py) :
    (countOf (getAllConstructs t) "ListComprehension" = countNodes t NodeType.ListComp ∧
     countOf (getAllConstructs t) "ListDisplay" =
       countNodes t NodeType.List + countNodes t NodeType.ListComp) ∧
    (countOf (getAllConstructs t) "SetComprehension" = countNodes t NodeType.SetComp ∧
     countOf (getAllConstructs t) "SetDisplay" =
       countNodes t NodeType.Set + countNodes t NodeType.SetComp) ∧
    (countOf (getAllConstructs t) "DictionaryComprehension" =
       countNodes t NodeType.DictComp ∧
     countOf (getAllConstructs t) "DictionaryDisplay" =
       countNodes t NodeType.Dict + countNodes t NodeType.DictComp) ∧
    countOf (getAllConstructs t) "Comprehension" =
      countNodes t NodeType.ListComp + countNodes t NodeType.SetComp
        + countNodes t NodeType.DictComp + countNodes t NodeType.GeneratorExp ∧
    (lookupA (getAllConstructs listCompTree) "ListComprehension" = some 1 ∧
     lookupA (getAllConstructs listCompTree) "ListDisplay" = some 1 ∧
     lookupA (getAllConstructs listCompTree) "Comprehension" = some 1 ∧
     lookupA (getAllConstructs listCompTree) "FilteredComprehension" = some 1) :=
  ⟨⟨getAllConstructs_ListComprehension t, getAllConstructs_ListDisplay t⟩,
   ⟨getAllConstructs_SetComprehension t, getAllConstructs_SetDisplay t⟩,
   ⟨getAllConstructs_DictionaryComprehension t, getAllConstructs_DictionaryDisplay t⟩,
   getAllConstructs_Comprehension t, rfl, rfl, rfl, rfl⟩

/-- C6: the import collector records, per imported name, the alias when given
and the original name otherwise, as a duplicate-free set mapped to `True`;
a program importing `os` twice yields the single entry `("os", true)`. -/
theorem C6_import_presence_semantics (t : Py) :
    ((getAllImports t).map Prod.fst).Nodup ∧
    (∀ x, x ∈ (getAllImports t).map Prod.fst ↔ ∃ n ∈ walk t, x ∈ importNamesOf n) ∧
    (∀ p ∈ getAllImports t, p.2 = true) ∧
    getAllImports doubleImportTree = [("os", true)] := by
  have hkeys : (getAllImports t).map Prod.fst = importsSetOf t := by
    unfold getAllImports
    rw [List.map_map]
    rw [show (Prod.fst ∘ fun x : String => (x, true)) = id from rfl, List.map_id]
  refine ⟨?_, ?_, ?_, rfl⟩
  · rw [hkeys]
    exact nodup_importsSetOf t
  · intro x
    rw [hkeys]
    exact mem_importsSetOf t x
  · intro p hp
    simp only [getAllImports, List.mem_map] at hp
    obtain ⟨x, _, rfl⟩ := hp
    rfl

/-- C6 witness: duplicate-freedom and a concrete `True` flag, instantiated
on the double-import program. -/
theorem C6_witness :
    ((getAllImports doubleImportTree).map Prod.fst).Nodup ∧
    (("os", true) : String × Bool).2 = true :=
  ⟨(C6_import_presence_semantics doubleImportTree).1,
   (C6_import_presence_semantics doubleImportTree).2.2.1 ("os", true) (by decide)⟩

/-- C7: for every chained-comparison node, the operator counter adds one
count per operator occurring in the chain, distributed by operator name (a
chain with k operators contributes k increments in total), not one count per
comparison node; the tree of `a < b <= c` yields `{"Lt": 1, "LtE": 1}`. -/
theorem C7_chained_comparison_counting (t : Py) (k : String) :
    countOf (getAllExpr t) k = ((walk t).map fun n => exprContrib n k).sum ∧
    (∀ (l : Py) (ops : List CmpOpK) (cs : List Py),
      exprContrib (.Compare l ops cs) k = (ops.map cmpOpName).count k) ∧
    (∀ (l : Py) (ops : List CmpOpK) (cs : List Py),
      ((ops.map cmpOpName).dedup.map fun nm =>
        exprContrib (.Compare l ops cs) nm).sum = ops.length) ∧
    getAllExpr chainCmpTree = [("Lt", 1), ("LtE", 1)] := by
  refine ⟨countOf_getAllExpr t k, fun l ops cs => rfl, fun l ops cs => ?_, rfl⟩
  have he : ((ops.map cmpOpName).dedup.map fun nm =>
      exprContrib (.Compare l ops cs) nm) =
      ((ops.map cmpOpName).dedup.map fun nm => (ops.map cmpOpName).count nm) := rfl
  rw [he, List.sum_map_count_dedup_eq_length, List.length_map]

/-- C8: `code_features` succeeds exactly on parsed source texts, and then
returns the record with exactly the five featureType keys in order; a parse
error is propagated unchanged. -/
theorem C8_code_features_totality (src : Except String Py) :
    ((∃ a, code_features src = .ok a) ↔ (∃ t, src = .ok t)) ∧
    (∀ t, src = .ok t → code_features src = .ok (analysisOf t) ∧
      (analysisOf t).map Prod.fst =
        ["statements", "functions", "imports", "expressions", "constructs"]) ∧
    (∀ e, src = .error e → code_features src = .error e) := by
  refine ⟨?_, ?_, ?_⟩
  · cases src with
    | ok t => exact iff_of_true ⟨analysisOf t, rfl⟩ ⟨t, rfl⟩
    | error e =>
      constructor
      · rintro ⟨a, ha⟩
        exact Except.noConfusion ha
      · rintro ⟨t, ht⟩
        exact Except.noConfusion ht
  · rintro t rfl
    exact ⟨rfl, rfl⟩
  · rintro e rfl
    rfl

/-- C8 witness: totality and the five keys on concrete inputs. -/
theorem C8_witness :
    code_features (.ok osTree) = .ok (analysisOf osTree) ∧
    (analysisOf osTree).map Prod.fst =
      ["statements", "functions", "imports", "expressions", "constructs"] ∧
    code_features parseFailure = .error "SyntaxError: invalid syntax" :=
  ⟨((C8_code_features_totality (.ok osTree)).2.1 osTree rfl).1,
   ((C8_code_features_totality (.ok osTree)).2.1 osTree rfl).2,
   (C8_code_features_totality parseFailure).2.2 "SyntaxError: invalid syntax" rfl⟩

/-- C9: in the record returned by `code_features` every value of the four
count-valued feature dicts is at least 1 and every value of the `imports`
dict is `True`; no key is present with a zero or false value. -/
theorem C9_no_zero_counts (t : Py) :
    code_features (.ok t) = .ok (analysisOf t) ∧
    (∀ ft fm, (ft, fm) ∈ analysisOf t → ∀ f v, (f, v) ∈ fm →
      (ft = "imports" → v = FeatVal.flag true) ∧
      (ft ≠ "imports" → ∃ n, v = FeatVal.count n ∧ 1 ≤ n)) := by
  have hcount : ∀ (m : CountMap), AllPos m → ∀ f v,
      (f, v) ∈ (m.map fun p => (p.1, FeatVal.count p.2)) →
      ∃ n, v = FeatVal.count n ∧ 1 ≤ n := by
    intro m hm f v hv
    simp only [List.mem_map] at hv
    obtain ⟨p, hp, heq⟩ := hv
    injection heq with h1 h2
    exact ⟨p.2, h2.symm, hm p hp⟩
  refine ⟨rfl, ?_⟩
  intro ft fm hmem f v hfv
  simp only [analysisOf, List.mem_cons, List.not_mem_nil, or_false, Prod.mk.injEq] at hmem
  rcases hmem with ⟨rfl, rfl⟩ | ⟨rfl, rfl⟩ | ⟨rfl, rfl⟩ | ⟨rfl, rfl⟩ | ⟨rfl, rfl⟩
  · exact ⟨fun hh => absurd hh (by decide),
      fun _ => hcount _ (allPos_getAllStatements t) f v hfv⟩
  · exact ⟨fun hh => absurd hh (by decide),
      fun _ => hcount _ (allPos_getFuncCalls t) f v hfv⟩
  · constructor
    · intro _
      simp only [List.mem_map] at hfv
      obtain ⟨p, hp, heq⟩ := hfv
      have hpt : p.2 = true := by
        simp only [getAllImports, List.mem_map] at hp
        obtain ⟨x, _, rfl⟩ := hp
        rfl
      injection heq with h1 h2
      rw [← h2, hpt]
    · intro hh
      exact absurd rfl hh
  · exact ⟨fun hh => absurd hh (by decide),
      fun _ => hcount _ (allPos_getAllExpr t) f v hfv⟩
  · exact ⟨fun hh => absurd hh (by decide),
      fun _ => hcount _ (allPos_getAllConstructs t) f v hfv⟩

/-- C9 witness: a concrete count value and a concrete imports flag. -/
theorem C9_witness :
    (∃ n, FeatVal.count 1 = FeatVal.count n ∧ 1 ≤ n) ∧
    FeatVal.flag true = FeatVal.flag true :=
  ⟨((C9_no_zero_counts tupleAssignTree).2 "constructs"
      ((getAllConstructs tupleAssignTree).map fun p => (p.1, FeatVal.count p.2))
      (by decide) "Assignment" (FeatVal.count 1) (by decide)).2 (by decide),
   ((C9_no_zero_counts osTree).2 "imports"
      ((getAllImports osTree).map fun p => (p.1, FeatVal.flag p.2))
      (by decide) "os" (FeatVal.flag true) (by decide)).1 rfl⟩

/-- C10: a problemKey (resp. userKey) occurs among the outer keys of the
returned indexes only if one of its solutions recorded at least one
(featureType, feature) entry; the empty batch yields the empty indexes, and
so does any batch whose analyses are all feature-free. -/
theorem C10_featureless_leave_no_trace (solutions : Batch) (r : Skills)
    (h : solution_features solutions = .ok r) :
    (∀ pk ∈ keysOf r.problemSkills,
        ∃ users q, (pk, users) ∈ solutions ∧ q ∈ users ∧ hasAnyFeature q.2 = true) ∧
    (∀ uk ∈ keysOf r.userSkills,
        ∃ pk users q, (pk, users) ∈ solutions ∧ q ∈ users ∧ q.1 = uk ∧
          hasAnyFeature q.2 = true) ∧
    solution_features ([] : Batch) = .ok { problemSkills := [], userSkills := [] } ∧
    ((∀ p ∈ solutions, ∀ q ∈ p.2, code_features q.2 = .ok emptyAnalysis) →
      r = { problemSkills := [], userSkills := [] }) := by
  obtain ⟨h1, h2⟩ := keys_origin_solution_features solutions r h
  refine ⟨h1, h2, rfl, fun hall => ?_⟩
  have h0 := solution_features_all_empty solutions hall
  rw [h] at h0
  injection h0

/-- C10 witness: key origin on a concrete batch, and the empty result for a
concrete featureless batch. -/
theorem C10_witness :
    (∃ users q, ("P1", users) ∈ osBatch ∧ q ∈ users ∧ hasAnyFeature q.2 = true) ∧
    ({ problemSkills := [], userSkills := [] } : Skills) =
      { problemSkills := [], userSkills := [] } :=
  ⟨(C10_featureless_leave_no_trace osBatch osSkills rfl).1 "P1" (by decide),
   (C10_featureless_leave_no_trace featurelessBatch
      { problemSkills := [], userSkills := [] } rfl).2.2.2
      (by
        rintro p hp q hq
        obtain rfl := List.mem_singleton.mp hp
        obtain rfl := List.mem_singleton.mp hq
        rfl)⟩
